import Mathlib

/-!
Verification development for `RS_HDMR_GPR_Code.py`.

The file shallowly embeds the numeric core of the script:

* `rmse` (lines 28-39): root mean square error of two equal-length vectors.
* `sumcol` (lines 42-56): row-wise sum of the columns of a matrix, skipping
  the column whose index equals `j` (the `i += 1` in the Python body rebinds
  the loop variable and is immediately overwritten by the `for`, so its only
  effect is that column `j` is not added).
* `combinations` (line 93): `itertools.combinations` over the column labels
  of the training frame, in itertools' lexicographic emission order.
* the cycle loop of `RS_HDMR_GPR` (lines 107-141): the alpha-decay schedule,
  per-cycle regressor reconstruction, the per-combination residual / fit /
  ramp / update step, and the per-cycle RMSE history.
* the test bloc (lines 150-158): per-combination mean and standard deviation
  predictions, squared into a variance matrix, summed and square-rooted.

Machine floats are idealised as `ℚ` for all state that the loop threads, and
as `ℝ` exactly where the code takes a square root (`np.sqrt`), which is the
only non-rational operation involved; `Real.sqrt` makes those definitions
noncomputable but every piece of loop state stays computable.

The Gaussian process regressor itself (`sklearn`'s
`GaussianProcessRegressor`) and `np.polyfit` are external library
primitives, out of the repository's scope; they are abstracted as explicit
function parameters (`predict`, `predStd`, `polyInit`), while the regressor
bookkeeping the script performs itself (the `alpha` passed to the
constructor, reconstruction of the regressor list, refitting in place) is
modelled by the `GPRState` record: `alpha` is the constructor argument,
`gen` tags when the instance was constructed (`0` = before the loop, `k+1`
= rebuilt at the start of cycle `k`), and `fitted` holds the last fit
target (`none` = never fitted).

Python's `(k + 1) / maxscaledowncycle` is true (float) division, embedded
as division in `ℚ`, with a `ZeroDivisionError` embedded as `Option.none`;
`int(number_cycles / 3)` truncates toward zero, embedded as `Nat` floor
division.
-/

namespace RSHDMR

/-- Elementwise squared error, from `Sqerr = np.power(ytest - ypred, 2)`
(line 36). -/
def Sqerr {n : ℕ} (ypred ytest : Fin n → ℚ) : Fin n → ℚ :=
  fun i => (ytest i - ypred i) ^ 2

/-- Sum of squared errors, from `MSE = np.sum(Sqerr)` (line 37). -/
def MSE {n : ℕ} (ypred ytest : Fin n → ℚ) : ℚ :=
  ∑ i, Sqerr ypred ytest i

/-- Root mean square error, from `rmse = np.sqrt(MSE / ytest.size)`
(line 38). Only the final square root leaves `ℚ`. -/
noncomputable def rmse {n : ℕ} (ypred ytest : Fin n → ℚ) : ℝ :=
  Real.sqrt ((MSE ypred ytest : ℝ) / (n : ℝ))

/-- Row-wise column sum skipping the column of index `j`, from `sumcol`
(lines 42-56): `s = zeros; for i in range(F.shape[1]): if i == j: i += 1
else: s = s + F[:, i]`.  The `if` branch contributes nothing to `s` (the
rebound `i` is dead), so the fold adds every column whose index differs
from `j`. -/
def sumcol {N M : ℕ} (F : Fin N → Fin M → ℚ) (j : ℕ) : Fin N → ℚ :=
  fun n => (List.finRange M).foldl (fun s (i : Fin M) => if (i : ℕ) = j then s else s + F n i) 0

/-- Mean of the training targets, from `mean = y_train.mean()` (line 94). -/
def meanQ {N : ℕ} (y : Fin N → ℚ) : ℚ := (∑ n, y n) / (N : ℚ)

/-- Naive component-function initialisation, from line 96:
`(1 / all_combos.shape[0]) * mean * np.ones((N, M))`. -/
def naiveCF (N M : ℕ) (y : Fin N → ℚ) : Fin N → Fin M → ℚ :=
  fun _ _ => (1 / (M : ℚ)) * meanQ y

/-- Embedding of `itertools.combinations` (line 93) over a list of column
labels, in the emission order of itertools: combinations containing the
head first. An `r` larger than the length yields no combinations (and no
error). -/
def combinations {α : Type} : ℕ → List α → List (List α)
  | 0, _ => [[]]
  | _ + 1, [] => []
  | r + 1, x :: xs => ((combinations r xs).map fun c => x :: c) ++ combinations (r + 1) xs

/-- The script-side record of one `GaussianProcessRegressor`: the `alpha`
passed to its constructor, the cycle tag of its construction (`0` for the
pre-loop list of line 110, `k+1` for a list rebuilt in cycle `k`), and the
target of its last `fit` call (`none` when never fitted). -/
structure GPRState (N : ℕ) where
  alpha : ℚ
  gen : ℕ
  fitted : Option (Fin N → ℚ)

/-- Configuration of one call of the training loop: training targets,
input `alpha`, `use_decay_alpha`, `mixe`, `number_cycles`, the initialised
component matrix and the abstracted regressor fit-and-predict primitive
(arguments: constructor `alpha`, combination index, fit target). -/
structure Config (N M : ℕ) where
  y : Fin N → ℚ
  alpha : ℚ
  useDecay : Bool
  mixe : Bool
  nc : ℕ
  CF0 : Fin N → Fin M → ℚ
  predict : ℚ → ℕ → (Fin N → ℚ) → Fin N → ℚ

/-- State threaded through the combination loop of one cycle. -/
structure FitState (N M : ℕ) where
  gprs : Fin M → GPRState N
  CF : Fin N → Fin M → ℚ

/-- State threaded from cycle to cycle: the running `alpha` variable, the
regressor list, the component matrix, and the row-sum vectors from which
the per-cycle RMSE history is reported. -/
structure TrainState (N M : ℕ) where
  alpha : ℚ
  gprs : Fin M → GPRState N
  CF : Fin N → Fin M → ℚ
  hist : List (Fin N → ℚ)

/-- One cycle of the alpha schedule (lines 118-129): first component is the
`alpha` passed to the regressors rebuilt in cycle `k`, second is the value
of the running `alpha` variable after the cycle.  `k < 2` and `k >= 8` use
the running value unchanged; `2 <= k < 8` constructs with `alpha * 1e-1`
and then executes `alpha = alpha * 1e-1`. -/
def decayAlphas (k : ℕ) (a : ℚ) : ℚ × ℚ :=
  if k < 2 then (a, a) else if k < 8 then (a * (1 / 10), a * (1 / 10)) else (a, a)

/-- A freshly constructed regressor list
(`[GaussianProcessRegressor(...) for i in range(M)]`). -/
def freshGPRs (N M : ℕ) (a : ℚ) (g : ℕ) : Fin M → GPRState N :=
  fun _ => ⟨a, g, none⟩

/-- Start-of-cycle regressor handling (lines 118-129): with
`use_decay_alpha == 'yes'` every branch rebuilds the whole list with fresh
instances tagged `k+1`; otherwise the list and `alpha` pass through
untouched.  Returns (running `alpha` after the cycle head, regressor list
used for the cycle's fits). -/
def cycleGPRs {N M : ℕ} (useDecay : Bool) (k : ℕ) (a : ℚ) (g : Fin M → GPRState N) :
    ℚ × (Fin M → GPRState N) :=
  if useDecay then ((decayAlphas k a).2, freshGPRs N M (decayAlphas k a).1 (k + 1))
  else (a, g)

/-- The running alpha variable at the start of cycle `k` under
`use_decay_alpha == 'yes'` (the mutation of line 125 iterated). -/
def alphaSeq (a0 : ℚ) : ℕ → ℚ
  | 0 => a0
  | k + 1 => (decayAlphas k (alphaSeq a0 k)).2

/-- The alpha passed to the regressors rebuilt at cycle `k` under
`use_decay_alpha == 'yes'`. -/
def alphaUsed (a0 : ℚ) (k : ℕ) : ℚ :=
  (decayAlphas k (alphaSeq a0 k)).1

/-- The scale-down ramp `min(1, ((k + 1) / maxscaledowncycle) + 0.5)` of
lines 137/139, with `maxscaledowncycle = int(number_cycles / 3)`
(line 115).  `none` embeds the `ZeroDivisionError` Python raises when
`int(number_cycles / 3) == 0`. -/
def rampOpt (nc k : ℕ) : Option ℚ :=
  if nc / 3 = 0 then none
  else some (min 1 ((k + 1 : ℚ) / ((nc / 3 : ℕ) : ℚ) + 1 / 2))

/-- In-place assignment `F[:, i] = c` of one column. -/
def updateCol {N M : ℕ} (CF : Fin N → Fin M → ℚ) (i : Fin M) (c : Fin N → ℚ) :
    Fin N → Fin M → ℚ :=
  fun n j => if j = i then c n else CF n j

/-- The pre-fit residual `vect = y_train - sumcol(component_function_train, i)`
(line 132). -/
def residual {N M : ℕ} (y : Fin N → ℚ) (CF : Fin N → Fin M → ℚ) (i : Fin M) :
    Fin N → ℚ :=
  fun n => y n - sumcol CF (i : ℕ) n

/-- One combination step of the cycle loop (lines 131-139): compute the
residual, store it in column `i`, fit regressor `i` on it, then overwrite
column `i` with the ramped prediction, blended with the residual when
`mixe == 'yes'`.  `none` embeds the `ZeroDivisionError` of the ramp. -/
def innerStep {N M : ℕ} (cfg : Config N M) (k : ℕ) (s : FitState N M) (i : Fin M) :
    Option (FitState N M) :=
  let vect := residual cfg.y s.CF i
  let CF1 := updateCol s.CF i vect
  let g1 := Function.update s.gprs i ⟨(s.gprs i).alpha, (s.gprs i).gen, some vect⟩
  let pred := cfg.predict (s.gprs i).alpha (i : ℕ) vect
  (rampOpt cfg.nc k).map fun r =>
    ⟨g1, updateCol CF1 i fun n => if cfg.mixe then (pred n * r + vect n) / 2 else pred n * r⟩

/-- The `for i in range(0, all_combos.shape[0])` loop of one cycle, with
each step reading the state the previous step produced. -/
def comboFold {N M : ℕ} (cfg : Config N M) (k : ℕ) :
    List (Fin M) → FitState N M → Option (FitState N M)
  | [], s => some s
  | i :: l, s => (innerStep cfg k s i).bind (comboFold cfg k l)

/-- One full cycle `k` (lines 116-141): rebuild the regressors when the
decay schedule is on, run the combination loop, and append
`sumcol(component_function_train, 10000)` — the vector whose RMSE against
the scaled targets is pushed onto `rmse_train` (line 140). -/
def runCycle {N M : ℕ} (cfg : Config N M) (k : ℕ) (s : TrainState N M) :
    Option (TrainState N M) :=
  let ag := cycleGPRs cfg.useDecay k s.alpha s.gprs
  (comboFold cfg k (List.finRange M) ⟨ag.2, s.CF⟩).map fun fs =>
    ⟨ag.1, fs.gprs, fs.CF, s.hist ++ [sumcol fs.CF 10000]⟩

/-- The state entering the cycle loop: input `alpha`, the pre-loop
regressor list of line 110 (tag `0`, unfitted), the initialised component
matrix, empty history. -/
def initTrain {N M : ℕ} (cfg : Config N M) : TrainState N M :=
  ⟨cfg.alpha, freshGPRs N M cfg.alpha 0, cfg.CF0, []⟩

/-- The training state after the first `k` cycles have completed. -/
def stateAfter {N M : ℕ} (cfg : Config N M) : ℕ → Option (TrainState N M)
  | 0 => some (initTrain cfg)
  | k + 1 => (stateAfter cfg k).bind (runCycle cfg k)

/-- The whole train bloc: all `number_cycles` cycles. -/
def trainLoop {N M : ℕ} (cfg : Config N M) : Option (TrainState N M) :=
  stateAfter cfg cfg.nc

/-- The `rmse_train` list returned to the caller (lines 140 and 183):
each recorded row-sum vector turned into
`rmse(y_train * scale_factor, sumcol(...) * scale_factor)`. -/
noncomputable def rmseTrain {N M : ℕ} (cfg : Config N M) (sf : ℚ) : Option (List ℝ) :=
  (trainLoop cfg).map fun st =>
    st.hist.map fun S => rmse (fun n => cfg.y n * sf) (fun n => S n * sf)

/-- Test-bloc component matrix (line 154): column `i` holds the mean
prediction of regressor `i` on the test inputs.  `predStd i` abstracts
`GPR[i].predict(xt, return_std=True)` as (mean vector, stddev vector). -/
def testCF (Nt M : ℕ) (predStd : ℕ → (Fin Nt → ℚ) × (Fin Nt → ℚ)) :
    Fin Nt → Fin M → ℚ :=
  fun t i => (predStd (i : ℕ)).1 t

/-- Error-bar matrix (lines 154-155): the standard deviation returned by
regressor `i`, squared elementwise by
`errorbars[:, i] = errorbars[:, i] * errorbars[:, i]`. -/
def errVarMat (Nt M : ℕ) (predStd : ℕ → (Fin Nt → ℚ) × (Fin Nt → ℚ)) :
    Fin Nt → Fin M → ℚ :=
  fun t i => (predStd (i : ℕ)).2 t * (predStd (i : ℕ)).2 t

/-- Raw test prediction `ypred = sumcol(component_function_test, 10000)`
(line 156). -/
def ypredT (Nt M : ℕ) (predStd : ℕ → (Fin Nt → ℚ) × (Fin Nt → ℚ)) :
    Fin Nt → ℚ :=
  sumcol (testCF Nt M predStd) 10000

/-- The radicand of line 158: `sumcol(errorbars, 5000)`. -/
def errVarSum (Nt M : ℕ) (predStd : ℕ → (Fin Nt → ℚ) × (Fin Nt → ℚ)) :
    Fin Nt → ℚ :=
  sumcol (errVarMat Nt M predStd) 5000

/-- Combined per-sample uncertainty
`error_bars = np.sqrt(sumcol(errorbars, 5000))` (line 158); the caller
receives `error_bars * scale_factor` (line 183). -/
noncomputable def errorBarsT (Nt M : ℕ) (predStd : ℕ → (Fin Nt → ℚ) × (Fin Nt → ℚ)) :
    Fin Nt → ℝ :=
  fun t => Real.sqrt ((errVarSum Nt M predStd t : ℝ))

/-- The two initialisation policies of lines 95-105. Any other string
leaves `component_function_train` unbound in the Python and is not
modelled. -/
inductive InitPolicy
  | naive
  | poly

/-- The computable payload a completed call produces: the recorded row-sum
vectors behind `rmse_train`, the regressor list, the raw test prediction
and the summed variance vector.  (The reported quantities — the RMSE
values, the scaled prediction and `error_bars * scale_factor` — are the
noncomputable images of these under `rmse`, `(* scale_factor)` and
`Real.sqrt`.) -/
structure CoreResult (N Nt : ℕ) where
  hist : List (Fin N → ℚ)
  gprs : List (GPRState N)
  ypred : Fin Nt → ℚ
  errvarsum : Fin Nt → ℚ

/-- The full `RS_HDMR_GPR` call with the regression library abstracted:
combination enumeration (line 93), initialisation (lines 94-105), the
train bloc, and the test bloc.  In the naive branch,
`1 / all_combos.shape[0]` raises `ZeroDivisionError` — `none` — when
there are no combinations.  In the polynomial branch, line 101 reads
`all_combos[i][0]`, the FIRST feature label of combination `i`, in
repository code: on an empty combination (`order = 0`) this raises
`IndexError` — `none`; otherwise `polyInit` abstracts
`np.polyfit(x, y_train, 3)` and its evaluation at `x` (library calls),
applied to that first label.  `none` embeds an exception propagating to
the caller; `some` a normal return. -/
def RS_HDMR_core (N Nt : ℕ) (cols : List ℕ) (order : ℕ) (y : Fin N → ℚ) (a0 : ℚ)
    (useDecay mixe : Bool) (nc : ℕ) (ip : InitPolicy)
    (polyInit : ℕ → Fin N → ℚ)
    (predict : ℚ → ℕ → (Fin N → ℚ) → Fin N → ℚ)
    (predStd : ℕ → (Fin Nt → ℚ) × (Fin Nt → ℚ)) : Option (CoreResult N Nt) :=
  (match ip with
    | .naive =>
        if (combinations order cols).length = 0 then none
        else some (naiveCF N (combinations order cols).length y)
    | .poly =>
        if ∀ c ∈ combinations order cols, c ≠ [] then
          some fun n i => polyInit (((combinations order cols).get i).headI) n
        else none
    : Option (Fin N → Fin (combinations order cols).length → ℚ)).bind fun CF0 =>
    (trainLoop ⟨y, a0, useDecay, mixe, nc, CF0, predict⟩).map fun st =>
      ⟨st.hist, (List.finRange (combinations order cols).length).map st.gprs,
        ypredT Nt (combinations order cols).length predStd,
        errVarSum Nt (combinations order cols).length predStd⟩

/-! Concrete instances used to evaluate the embedding at specific inputs. -/

/-- The all-zero vector on one sample. -/
def vA : Fin 1 → ℚ := fun _ => 0

/-- A constant vector on one sample. -/
def vB : Fin 1 → ℚ := fun _ => 2

/-- A constant vector on one sample, used for the naive initialiser. -/
def vC : Fin 1 → ℚ := fun _ => 4

/-- A concrete 1-by-2 matrix. -/
def Fc2 : Fin 1 → Fin 2 → ℚ := fun _ j => if j = 0 then 3 else 5

/-- Decay schedule on, ten cycles, one combination: exercises the alpha
regimes through the loop itself. -/
def cfgA : Config 1 1 :=
  ⟨vA, 1, true, false, 10, fun _ _ => 0, fun _ _ _ => vA⟩

/-- A single cycle (`number_cycles = 1`) with one combination:
`int(number_cycles / 3) = 0`, so the ramp's division is reached. -/
def cfgB : Config 1 1 :=
  ⟨vA, 1, false, false, 1, fun _ _ => 0, fun _ _ _ => vA⟩

/-- Mixing enabled, constant predictor, used to exercise the update
policy. -/
def cfgC : Config 1 1 :=
  ⟨vB, 1, false, true, 3, fun _ _ => 1, fun _ _ _ => fun _ => 5⟩

/-- A mid-cycle fit state for `cfgC`. -/
def sC : FitState 1 1 :=
  ⟨freshGPRs 1 1 1 0, fun _ _ => 1⟩

/-- Per-combination constant predictions: combination 10000 predicts one,
all others zero. -/
def gD : ℕ → Fin 1 → ℚ := fun i _ => if i = 10000 then 1 else 0

/-- A configuration with 10001 combinations — one more than the `sumcol`
sentinel of line 140 — three cycles, no mixing, predictor `gD`. -/
def cfgD : Config 1 10001 :=
  ⟨vA, 1, false, false, 3, fun _ _ => 0, fun _ i _ => gD i⟩

/-- No combinations at all, two cycles: the cycle loop completes without
touching a regressor. -/
def cfgW5 : Config 1 0 :=
  ⟨vA, 1, false, false, 2, fun _ j => j.elim0, fun _ _ _ => vA⟩

/-- The `rmse_train` list `cfgW5` produces. -/
noncomputable def rW5 : List ℝ :=
  [rmse (fun n => cfgW5.y n * 1) (fun n => sumcol cfgW5.CF0 10000 n * 1),
   rmse (fun n => cfgW5.y n * 1) (fun n => sumcol cfgW5.CF0 10000 n * 1)]

/-- No combinations, decay off: the regressor list passes through cycles
untouched. -/
def cfgW10 : Config 1 0 :=
  ⟨vA, 1, false, false, 2, fun _ j => j.elim0, fun _ _ _ => vA⟩

/-- The state `cfgW10` reaches after one cycle. -/
def sW10 : TrainState 1 0 :=
  ⟨1, freshGPRs 1 0 1 0, cfgW10.CF0, [sumcol cfgW10.CF0 10000]⟩

/-- A test bloc of 5001 regressors — one more than the `sumcol` sentinel
of line 158 — where only combination 5000 reports a nonzero standard
deviation. -/
def predC7 : ℕ → (Fin 1 → ℚ) × (Fin 1 → ℚ) :=
  fun i => (vA, fun _ => if i = 5000 then 1 else 0)

/-- A single test-bloc regressor with unit standard deviation. -/
def predC7b : ℕ → (Fin 1 → ℚ) × (Fin 1 → ℚ) :=
  fun _ => (vA, fun _ => 1)

/-- A test-bloc prediction used for the evaluator witness. -/
def predW : ℕ → (Fin 1 → ℚ) × (Fin 1 → ℚ) :=
  fun _ => (vA, vB)

/-! Helper lemmas. -/

theorem foldl_add_shift {M : ℕ} (g : Fin M → ℚ) (l : List (Fin M)) :
    ∀ s0 : ℚ, l.foldl (fun s i => s + g i) s0 = s0 + (l.map g).sum := by
  induction l with
  | nil => intro s0; simp
  | cons i l ih => intro s0; simp [List.foldl_cons, ih, add_assoc]

theorem sumcol_eq_sum {N M : ℕ} (F : Fin N → Fin M → ℚ) (j : ℕ) (n : Fin N) :
    sumcol F j n = ∑ i : Fin M, if (i : ℕ) = j then 0 else F n i := by
  have h1 : (fun s (i : Fin M) => if (i : ℕ) = j then s else s + F n i)
      = fun s (i : Fin M) => s + (if (i : ℕ) = j then 0 else F n i) := by
    funext s i
    by_cases h : (i : ℕ) = j <;> simp [h]
  rw [sumcol]
  rw [h1, foldl_add_shift, zero_add, Fin.sum_univ_def]

theorem sumcol_of_ge {N M : ℕ} (F : Fin N → Fin M → ℚ) (j : ℕ) (h : M ≤ j) (n : Fin N) :
    sumcol F j n = ∑ i : Fin M, F n i := by
  rw [sumcol_eq_sum]
  refine Finset.sum_congr rfl fun i _ => ?_
  have hij : (i : ℕ) ≠ j := by have := i.isLt; omega
  simp [hij]

theorem sumcol_of_lt {N M : ℕ} (F : Fin N → Fin M → ℚ) {j : ℕ} (h : j < M) (n : Fin N) :
    sumcol F j n = ∑ i in Finset.univ.erase (⟨j, h⟩ : Fin M), F n i := by
  rw [sumcol_eq_sum, ← Finset.sum_erase_add _ _ (Finset.mem_univ (⟨j, h⟩ : Fin M))]
  have h0 : (if (((⟨j, h⟩ : Fin M)) : ℕ) = j then (0 : ℚ) else F n ⟨j, h⟩) = 0 := by simp
  rw [h0, add_zero]
  refine Finset.sum_congr rfl fun i hi => ?_
  have hij : (i : ℕ) ≠ j := by
    intro hc
    exact Finset.ne_of_mem_erase hi (Fin.ext hc)
  simp [hij]

/-- Claim C2: `sumcol F j` sums, for each row, every column of `F` except
column `j` when `j` is in range (no other column is skipped); an exclusion
index at or beyond the column count sums all columns; consequently the
residual `vect = y_train - sumcol(component_matrix, i)` of the cycle loop
equals the targets minus the sum of all components other than `i`. -/
theorem sumcol_spec {N M : ℕ} (F : Fin N → Fin M → ℚ) (j : ℕ) :
    (∀ (h : j < M) (n : Fin N),
        sumcol F j n = ∑ i in Finset.univ.erase (⟨j, h⟩ : Fin M), F n i) ∧
    (M ≤ j → ∀ n : Fin N, sumcol F j n = ∑ i : Fin M, F n i) ∧
    (∀ (y : Fin N → ℚ) (i : Fin M) (n : Fin N),
        residual y F i n = y n - ∑ t in Finset.univ.erase i, F n t) := by
  refine ⟨fun h n => sumcol_of_lt F h n, fun h n => sumcol_of_ge F j h n, fun y i n => ?_⟩
  have h := sumcol_of_lt F i.isLt n
  rw [Fin.eta] at h
  rw [residual, h]

/-- Witness for C2 at a concrete 1-by-2 matrix and exclusion index 0. -/
theorem sumcol_spec_witness :
    sumcol Fc2 0 0 = ∑ i in Finset.univ.erase (⟨0, by norm_num⟩ : Fin 2), Fc2 0 i :=
  (sumcol_spec Fc2 0).1 (by norm_num) 0

/-- Claim C9: `rmse` computes `sqrt(sum((target - pred)^2) / N)` for
equal-length vectors of positive size; it vanishes on identical vectors
and is symmetric in its two arguments.  (As a function of its arguments it
is pure by construction.) -/
theorem rmse_spec {n : ℕ} (_hn : 1 ≤ n) (ypred ytest : Fin n → ℚ) :
    rmse ypred ytest
        = Real.sqrt ((∑ i, ((ytest i : ℝ) - (ypred i : ℝ)) ^ 2) / (n : ℝ)) ∧
    rmse ytest ytest = 0 ∧
    rmse ypred ytest = rmse ytest ypred := by
  refine ⟨?_, ?_, ?_⟩
  · rw [rmse, MSE]
    congr 1
    push_cast [Sqerr]
    rfl
  · simp [rmse, MSE, Sqerr]
  · have hM : MSE ypred ytest = MSE ytest ypred := by
      rw [MSE, MSE]
      exact Finset.sum_congr rfl fun i _ => by rw [Sqerr, Sqerr]; ring
    rw [rmse, rmse, hM]

/-- Witness for C9 at a pair of concrete one-sample vectors. -/
theorem rmse_spec_witness : rmse vB vB = 0 ∧ rmse vA vB = rmse vB vA :=
  ⟨(rmse_spec (le_refl 1) vA vB).2.1, (rmse_spec (le_refl 1) vA vB).2.2⟩

/-- Claim C8: with the naive initialiser and a positive number of
combinations, every cell of the component matrix is
`mean(y_train) / M`, and every row sums to `mean(y_train)` exactly. -/
theorem naive_init_spec {N : ℕ} (cols : List ℕ) (order : ℕ) (y : Fin N → ℚ)
    (hM : 0 < (combinations order cols).length) :
    (∀ (n : Fin N) (i : Fin (combinations order cols).length),
        naiveCF N (combinations order cols).length y n i
          = meanQ y / ((combinations order cols).length : ℚ)) ∧
    (∀ n : Fin N,
        ∑ i, naiveCF N (combinations order cols).length y n i = meanQ y) := by
  constructor
  · intro n i
    rw [naiveCF]
    ring
  · intro n
    have hM0 : (((combinations order cols).length : ℕ) : ℚ) ≠ 0 :=
      Nat.cast_ne_zero.mpr hM.ne'
    simp only [naiveCF, Finset.sum_const, Finset.card_univ, Fintype.card_fin,
      nsmul_eq_mul]
    field_simp

/-- Witness for C8: one-dimensional combinations of two columns, target
mean 4. -/
theorem naive_init_spec_witness :
    ∑ i, naiveCF 1 (combinations 1 [0, 1]).length vC 0 i = meanQ vC :=
  (naive_init_spec [0, 1] 1 vC (by decide)).2 0

theorem length_combinations {α : Type} (r : ℕ) (l : List α) :
    (combinations r l).length = Nat.choose l.length r := by
  induction l generalizing r with
  | nil => cases r <;> simp [combinations]
  | cons x xs ih =>
    cases r with
    | zero => simp [combinations]
    | succ r =>
      simp [combinations, ih r, ih (r + 1), Nat.choose_succ_succ]

theorem mem_combinations {α : Type} (r : ℕ) (l : List α) (c : List α)
    (hc : c ∈ combinations r l) : c.length = r ∧ c.Sublist l := by
  induction l generalizing r c with
  | nil =>
    cases r with
    | zero =>
      rw [combinations, List.mem_singleton] at hc
      subst hc
      simp
    | succ r => simp [combinations] at hc
  | cons x xs ih =>
    cases r with
    | zero =>
      rw [combinations, List.mem_singleton] at hc
      subst hc
      simp
    | succ r =>
      rw [combinations, List.mem_append] at hc
      rcases hc with h | h
      · rcases List.mem_map.mp h with ⟨c0, hc0, rfl⟩
        obtain ⟨hl, hs⟩ := ih r c0 hc0
        exact ⟨by simp [hl], hs.cons₂ x⟩
      · obtain ⟨hl, hs⟩ := ih (r + 1) c h
        exact ⟨hl, hs.cons x⟩

theorem combinations_eq_nil {α : Type} {r : ℕ} {l : List α} (h : l.length < r) :
    combinations r l = [] := by
  have hlen := length_combinations r l
  rw [Nat.choose_eq_zero_of_lt h] at hlen
  exact List.length_eq_zero.mp hlen

theorem stateAfter_isSome_of_zero {N M : ℕ} (hM : M = 0) (cfg : Config N M) :
    ∀ k, ∃ s, stateAfter cfg k = some s := by
  subst hM
  intro k
  induction k with
  | zero => exact ⟨initTrain cfg, rfl⟩
  | succ k ih =>
    obtain ⟨s, hs⟩ := ih
    exact ⟨_, by rw [stateAfter, hs]; rfl⟩

theorem trainLoop_isSome_of_zero {N M : ℕ} (hM : M = 0) (cfg : Config N M) :
    ∃ s, trainLoop cfg = some s :=
  stateAfter_isSome_of_zero hM cfg cfg.nc

/-- Claim C4 (amended): with the naive initialiser, `order > D` makes the
call fail (the `1 / all_combos.shape[0]` of line 96 divides by zero,
because `itertools.combinations` yields no combination); with the
polynomial initialiser, `order > D` does NOT fail — the loop body never
runs and the call returns normally with an empty regressor list — while
`order = 0` DOES fail, because line 101 reads `all_combos[i][0]` from
the empty combination in repository code (`IndexError`).  For any
`order`, the enumerator itself never raises: it produces exactly
`C(D, order)` combinations (zero of them when `order > D`), each of
length `order` and, when the column labels are distinct, with distinct
entries. -/
theorem order_bounds_spec (N Nt : ℕ) (cols : List ℕ) (order : ℕ) (y : Fin N → ℚ)
    (a0 : ℚ) (useDecay mixe : Bool) (nc : ℕ)
    (polyInit : ℕ → Fin N → ℚ) (predict : ℚ → ℕ → (Fin N → ℚ) → Fin N → ℚ)
    (predStd : ℕ → (Fin Nt → ℚ) × (Fin Nt → ℚ)) :
    (cols.length < order →
        RS_HDMR_core N Nt cols order y a0 useDecay mixe nc .naive polyInit predict predStd
          = none ∧
        (RS_HDMR_core N Nt cols order y a0 useDecay mixe nc .poly polyInit predict
          predStd).isSome = true) ∧
    (RS_HDMR_core N Nt cols 0 y a0 useDecay mixe nc .poly polyInit predict predStd
      = none) ∧
    ((combinations order cols).length = Nat.choose cols.length order) ∧
    (∀ c ∈ combinations order cols, c.length = order ∧ (cols.Nodup → c.Nodup)) := by
  refine ⟨fun h => ⟨?_, ?_⟩, ?_, length_combinations order cols, fun c hc => ?_⟩
  · have hM : (combinations order cols).length = 0 := by
      rw [combinations_eq_nil h]
      rfl
    rw [RS_HDMR_core]
    rw [if_pos hM]
    rfl
  · rw [RS_HDMR_core]
    have hne : ∀ c ∈ combinations order cols, c ≠ [] := fun c hc =>
      absurd hc (by rw [combinations_eq_nil h]; exact List.not_mem_nil c)
    rw [if_pos hne]
    obtain ⟨s, hs⟩ := trainLoop_isSome_of_zero
      (by rw [combinations_eq_nil h]; rfl)
      (⟨y, a0, useDecay, mixe, nc,
          fun n i => polyInit (((combinations order cols).get i).headI) n, predict⟩ :
        Config N (combinations order cols).length)
    rw [Option.some_bind, hs]
    rfl
  · rw [RS_HDMR_core]
    have h0 : combinations 0 cols = [[]] := by simp [combinations]
    have hg : ¬∀ c ∈ combinations 0 cols, c ≠ [] := fun hall =>
      hall [] (by rw [h0]; exact List.mem_singleton_self []) rfl
    rw [if_neg hg]
    rfl
  · obtain ⟨hl, hs⟩ := mem_combinations order cols c hc
    exact ⟨hl, fun hnd => hs.nodup hnd⟩

/-- Witness for C4 at `D = 2`, `order = 3`: the naive call fails, the
polynomial call returns. -/
theorem order_bounds_spec_witness :
    RS_HDMR_core 1 1 [0, 1] 3 vA 1 false false 2 .naive (fun _ _ => 0)
        (fun _ _ _ => vA) (fun _ => (vA, vA)) = none ∧
    (RS_HDMR_core 1 1 [0, 1] 3 vA 1 false false 2 .poly (fun _ _ => 0)
        (fun _ _ _ => vA) (fun _ => (vA, vA))).isSome = true :=
  (order_bounds_spec 1 1 [0, 1] 3 vA 1 false false 2 (fun _ _ => 0)
    (fun _ _ _ => vA) (fun _ => (vA, vA))).1 (by norm_num)

/-- Counterexample to C4 as stated: a call with `order = 2` on a
one-column dataset (so `order > D`) and the polynomial initialiser
returns a result instead of failing. -/
theorem order_fail_cex :
    (RS_HDMR_core 1 1 [0] 2 vA 1 false false 1 .poly (fun _ _ => 0)
        (fun _ _ _ => vA) (fun _ => (vA, vA))).isSome = true := by
  decide

theorem innerStep_isSome {N M : ℕ} (cfg : Config N M) (k : ℕ) (s : FitState N M)
    (i : Fin M) (h : cfg.nc / 3 ≠ 0) : ∃ s1, innerStep cfg k s i = some s1 := by
  rw [innerStep, rampOpt, if_neg h]
  exact ⟨_, rfl⟩

theorem comboFold_isSome {N M : ℕ} (cfg : Config N M) (k : ℕ) (h : cfg.nc / 3 ≠ 0) :
    ∀ (l : List (Fin M)) (s : FitState N M), ∃ s1, comboFold cfg k l s = some s1 := by
  intro l
  induction l with
  | nil => intro s; exact ⟨s, rfl⟩
  | cons i l ih =>
    intro s
    obtain ⟨s2, hs2⟩ := innerStep_isSome cfg k s i h
    obtain ⟨s1, hs1⟩ := ih s2
    exact ⟨s1, by rw [comboFold, hs2, Option.some_bind, hs1]⟩

theorem stateAfter_isSome {N M : ℕ} (cfg : Config N M) (h : cfg.nc / 3 ≠ 0) :
    ∀ k, ∃ s, stateAfter cfg k = some s := by
  intro k
  induction k with
  | zero => exact ⟨initTrain cfg, rfl⟩
  | succ k ih =>
    obtain ⟨s, hs⟩ := ih
    obtain ⟨fs, hfs⟩ :=
      comboFold_isSome cfg k h (List.finRange M)
        ⟨(cycleGPRs cfg.useDecay k s.alpha s.gprs).2, s.CF⟩
    refine ⟨⟨(cycleGPRs cfg.useDecay k s.alpha s.gprs).1, fs.gprs, fs.CF,
      s.hist ++ [sumcol fs.CF 10000]⟩, ?_⟩
    rw [stateAfter, hs, Option.some_bind, runCycle, hfs]
    rfl

theorem alphaSeq_of_le_two (a0 : ℚ) (k : ℕ) (hk : k ≤ 2) : alphaSeq a0 k = a0 := by
  interval_cases k <;> simp [alphaSeq, decayAlphas]

theorem alphaSeq_mid (a0 : ℚ) (k : ℕ) (h2 : 2 ≤ k) (h8 : k ≤ 8) :
    alphaSeq a0 k = a0 * (1 / 10) ^ (k - 2) := by
  induction k, h2 using Nat.le_induction with
  | base => simp [alphaSeq_of_le_two a0 2 le_rfl]
  | succ k hk ih =>
    have hk8 : k ≤ 8 := by omega
    have hlt2 : ¬k < 2 := by omega
    have hlt8 : k < 8 := by omega
    rw [alphaSeq, ih hk8, decayAlphas, if_neg hlt2, if_pos hlt8]
    rw [show k + 1 - 2 = (k - 2) + 1 by omega, pow_succ]
    ring

theorem alphaSeq_late (a0 : ℚ) (k : ℕ) (h : 8 ≤ k) :
    alphaSeq a0 k = a0 * (1 / 10) ^ 6 := by
  induction k, h using Nat.le_induction with
  | base => exact alphaSeq_mid a0 8 (by norm_num) le_rfl
  | succ k hk ih =>
    have h2 : ¬k < 2 := by omega
    have h8 : ¬k < 8 := by omega
    rw [alphaSeq, ih, decayAlphas, if_neg h2, if_neg h8]

theorem stateAfter_alpha {N M : ℕ} (cfg : Config N M) (k : ℕ) (s : TrainState N M)
    (h : stateAfter cfg k = some s) :
    s.alpha = if cfg.useDecay then alphaSeq cfg.alpha k else cfg.alpha := by
  induction k generalizing s with
  | zero =>
    rw [stateAfter, Option.some_inj] at h
    rw [← h, initTrain]
    cases cfg.useDecay <;> simp [alphaSeq]
  | succ k ih =>
    rw [stateAfter] at h
    rcases Option.bind_eq_some.mp h with ⟨s0, h0, h1⟩
    have ha0 := ih s0 h0
    rw [runCycle] at h1
    rcases Option.map_eq_some'.mp h1 with ⟨fs, _, hs⟩
    rw [← hs]
    cases hd : cfg.useDecay with
    | false =>
      rw [hd] at ha0
      simp only [Bool.false_eq_true, if_false] at ha0
      simp [cycleGPRs, hd, ha0]
    | true =>
      rw [hd] at ha0
      simp only [if_true] at ha0
      simp [cycleGPRs, hd, ha0, alphaSeq]

/-- Claim C1 (amended): under the decay schedule, the alpha passed to the
regressors built at cycle `k` is the original input for `k < 2`, is
`original * 0.1 ^ (k - 1)` for `2 <= k < 8` (the decay compounds once per
cycle inside the regime, not once at its start), and stays frozen at
`original * 0.1 ^ 6 = original * 1e-6` for every `k >= 8`; and through
the loop itself, the regressors constructed at the head of cycle `k`
carry exactly that alpha. -/
theorem alpha_decay_regimes (a0 : ℚ) (k : ℕ) :
    (k < 2 → alphaUsed a0 k = a0) ∧
    (2 ≤ k → k < 8 → alphaUsed a0 k = a0 * (1 / 10) ^ (k - 1)) ∧
    (8 ≤ k → alphaUsed a0 k = a0 * (1 / 10) ^ 6) ∧
    (∀ (N M : ℕ) (cfg : Config N M) (s : TrainState N M) (i : Fin M),
        cfg.useDecay = true → cfg.alpha = a0 → stateAfter cfg k = some s →
        ((cycleGPRs cfg.useDecay k s.alpha s.gprs).2 i).alpha = alphaUsed a0 k) := by
  refine ⟨fun h => ?_, fun h2 h8 => ?_, fun h => ?_, ?_⟩
  · rw [alphaUsed, alphaSeq_of_le_two a0 k (by omega), decayAlphas, if_pos h]
  · have hlt2 : ¬k < 2 := by omega
    rw [alphaUsed, alphaSeq_mid a0 k h2 (by omega), decayAlphas, if_neg hlt2, if_pos h8]
    rw [show k - 1 = (k - 2) + 1 by omega, pow_succ]
    ring
  · have h2 : ¬k < 2 := by omega
    have h8 : ¬k < 8 := by omega
    rw [alphaUsed, alphaSeq_late a0 k h, decayAlphas, if_neg h2, if_neg h8]
  · intro N M cfg s i hd ha hs
    have := stateAfter_alpha cfg k s hs
    rw [hd, if_pos rfl, ha] at this
    simp [cycleGPRs, hd, freshGPRs, alphaUsed, this]

/-- Witness for C1 at cycle 9 with input alpha 2. -/
theorem alpha_decay_regimes_witness : alphaUsed 2 9 = 2 * (1 / 10) ^ 6 :=
  (alpha_decay_regimes 2 9).2.2.1 (by norm_num)

/-- Counterexample to C1 as stated: through the loop with input alpha 1,
the regressors built at cycle 3 carry alpha `1/100`, not the claimed
`original * 0.1 = 1/10`, and those built at cycle 9 carry `1e-6`, again
not `1/10`. -/
theorem alpha_decay_cex :
    (stateAfter cfgA 3).map (fun s => ((cycleGPRs true 3 s.alpha s.gprs).2 0).alpha)
      = some (1 / 100) ∧
    ¬((1 : ℚ) / 100 = 1 * (1 / 10)) ∧
    (stateAfter cfgA 9).map (fun s => ((cycleGPRs true 9 s.alpha s.gprs).2 0).alpha)
      = some (1 / 1000000) ∧
    ¬((1 : ℚ) / 1000000 = 1 * (1 / 10)) := by
  have hnc : cfgA.nc / 3 ≠ 0 := by norm_num [cfgA]
  obtain ⟨s3, hs3⟩ := stateAfter_isSome cfgA hnc 3
  obtain ⟨s9, hs9⟩ := stateAfter_isSome cfgA hnc 9
  have ha3 : s3.alpha = alphaSeq 1 3 := by
    have h := stateAfter_alpha cfgA 3 s3 hs3
    rwa [show cfgA.useDecay = true from rfl, if_pos rfl] at h
  have ha9 : s9.alpha = alphaSeq 1 9 := by
    have h := stateAfter_alpha cfgA 9 s9 hs9
    rwa [show cfgA.useDecay = true from rfl, if_pos rfl] at h
  refine ⟨?_, by norm_num, ?_, by norm_num⟩
  · rw [hs3, Option.map_some', Option.some_inj, ha3]
    norm_num [cycleGPRs, freshGPRs, alphaSeq, decayAlphas]
  · rw [hs9, Option.map_some', Option.some_inj, ha9]
    norm_num [cycleGPRs, freshGPRs, alphaSeq, decayAlphas]

/-- Claim C3 (amended): for `number_cycles >= 3` the divisor
`int(number_cycles / 3)` is nonzero, so for every cycle index the ramp is
well-defined and equals `min(1, (k+1) / floor(number_cycles/3) + 0.5)`.
(For `number_cycles` in `{1, 2}` the divisor is zero and the update step
raises: see the counterexample.) -/
theorem ramp_welldef (nc k : ℕ) (h : 3 ≤ nc) :
    nc / 3 ≠ 0 ∧
    rampOpt nc k = some (min 1 ((k + 1 : ℚ) / ((nc / 3 : ℕ) : ℚ) + 1 / 2)) := by
  have h0 : nc / 3 ≠ 0 := by
    have h1 : 1 ≤ nc / 3 := (Nat.one_le_div_iff (by norm_num)).mpr h
    omega
  exact ⟨h0, by rw [rampOpt, if_neg h0]⟩

/-- Witness for C3 at `number_cycles = 3`, cycle 0. -/
theorem ramp_welldef_witness :
    (3 : ℕ) / 3 ≠ 0 ∧
    rampOpt 3 0 = some (min 1 ((0 + 1 : ℚ) / (((3 : ℕ) / 3 : ℕ) : ℚ) + 1 / 2)) :=
  ramp_welldef 3 0 le_rfl

/-- Counterexample to C3 as stated: with `number_cycles = 1` (allowed by
the claimed precondition `number_cycles >= 1`) the divisor
`int(number_cycles / 3)` is zero, the ramp raises `ZeroDivisionError`,
and a one-combination training run fails instead of completing. -/
theorem ramp_cex : rampOpt 1 0 = none ∧ trainLoop cfgB = none := by
  constructor
  · rw [rampOpt]
    norm_num
  · have h1 : innerStep cfgB 0 ⟨freshGPRs 1 1 1 0, cfgB.CF0⟩ 0 = none := by
      rw [innerStep, rampOpt]
      norm_num [cfgB]
    show (some (initTrain cfgB)).bind (runCycle cfgB 0) = none
    rw [Option.some_bind, runCycle]
    have h2 : List.finRange 1 = [0] := rfl
    rw [h2, comboFold]
    rw [show (cycleGPRs cfgB.useDecay 0 (initTrain cfgB).alpha (initTrain cfgB).gprs).2
        = freshGPRs 1 1 1 0 from rfl]
    rw [show (initTrain cfgB).CF = cfgB.CF0 from rfl, h1]
    rfl

theorem comboFold_gpr_fields {N M : ℕ} (cfg : Config N M) (k : ℕ) :
    ∀ (l : List (Fin M)) (s s1 : FitState N M), comboFold cfg k l s = some s1 →
      ∀ i, (s1.gprs i).alpha = (s.gprs i).alpha ∧ (s1.gprs i).gen = (s.gprs i).gen := by
  intro l
  induction l with
  | nil =>
    intro s s1 h i
    rw [comboFold, Option.some_inj] at h
    rw [h]
    exact ⟨rfl, rfl⟩
  | cons j l ih =>
    intro s s1 h i
    rw [comboFold] at h
    rcases Option.bind_eq_some.mp h with ⟨s2, h2, h3⟩
    obtain ⟨ha, hg⟩ := ih s2 s1 h3 i
    rw [innerStep] at h2
    rcases Option.map_eq_some'.mp h2 with ⟨r, _, hs2⟩
    rw [← hs2] at ha hg
    by_cases hij : i = j
    · subst hij
      simp only [Function.update_same] at ha hg
      exact ⟨ha, hg⟩
    · simp only [Function.update_noteq hij] at ha hg
      exact ⟨ha, hg⟩

theorem stateAfter_gen_zero {N M : ℕ} (cfg : Config N M) (hd : cfg.useDecay = false) :
    ∀ (k : ℕ) (s : TrainState N M), stateAfter cfg k = some s →
      ∀ i, (s.gprs i).gen = 0 := by
  intro k
  induction k with
  | zero =>
    intro s h i
    rw [stateAfter, Option.some_inj] at h
    rw [← h]
    rfl
  | succ k ih =>
    intro s h i
    rw [stateAfter] at h
    rcases Option.bind_eq_some.mp h with ⟨s0, h0, h1⟩
    rw [runCycle] at h1
    rcases Option.map_eq_some'.mp h1 with ⟨fs, hfs, hs⟩
    have hcg : (cycleGPRs cfg.useDecay k s0.alpha s0.gprs).2 = s0.gprs := by
      simp [cycleGPRs, hd]
    rw [hcg] at hfs
    have hfields := comboFold_gpr_fields cfg k (List.finRange M) _ fs hfs i
    rw [← hs]
    show (fs.gprs i).gen = 0
    rw [hfields.2]
    exact ih s0 h0 i

/-- Claim C10: when the decay schedule is on, the regressor list entering
the fit phase of every cycle `k` — including cycles 0, 1 and every cycle
at or past 8 — consists of fresh instances constructed in that cycle
(tag `k+1`) with no fitted state (`fitted = none`); when it is off, the
running alpha never changes from the input value and every regressor in
the state is still a pre-loop instance (tag `0`), reused and refit in
place. -/
theorem regressor_frame_spec {N M : ℕ} (cfg : Config N M) (k : ℕ) (s : TrainState N M)
    (h : stateAfter cfg k = some s) :
    (cfg.useDecay = true →
        ∀ i, (cycleGPRs cfg.useDecay k s.alpha s.gprs).2 i
          = ⟨alphaUsed cfg.alpha k, k + 1, none⟩) ∧
    (cfg.useDecay = false →
        s.alpha = cfg.alpha ∧
        (cycleGPRs cfg.useDecay k s.alpha s.gprs).2 = s.gprs ∧
        ∀ i, (s.gprs i).gen = 0) := by
  constructor
  · intro hd i
    have ha := stateAfter_alpha cfg k s h
    rw [hd, if_pos rfl] at ha
    simp [cycleGPRs, hd, freshGPRs, alphaUsed, ha]
  · intro hd
    have ha := stateAfter_alpha cfg k s h
    rw [hd] at ha
    simp only [Bool.false_eq_true, if_false] at ha
    exact ⟨ha, by simp [cycleGPRs, hd], stateAfter_gen_zero cfg hd k s h⟩

/-- Witness for C10 after one cycle of a decay-off configuration. -/
theorem regressor_frame_spec_witness :
    sW10.alpha = cfgW10.alpha ∧
    (cycleGPRs cfgW10.useDecay 1 sW10.alpha sW10.gprs).2 = sW10.gprs ∧
    ∀ i, (sW10.gprs i).gen = 0 :=
  (regressor_frame_spec cfgW10 1 sW10 rfl).2 rfl

/-- Claim C6: in every (cycle, combination) step whose ramp is defined,
the step succeeds and writes column `i` to
`(prediction * ramp + vect) / 2` when mixing is on and to
`prediction * ramp` otherwise — where `prediction` is the freshly fitted
regressor's prediction on the pre-fit residual `vect` — leaving every
other column unchanged; and the combination loop feeds the updated state
to the next combination of the same cycle (sequential, not batched). -/
theorem update_policy_spec {N M : ℕ} (cfg : Config N M) (k : ℕ) (s : FitState N M)
    (i : Fin M) (r : ℚ) (hr : rampOpt cfg.nc k = some r) :
    (innerStep cfg k s i).isSome = true ∧
    (∀ s1, innerStep cfg k s i = some s1 →
        (∀ n, s1.CF n i =
            if cfg.mixe then
              (cfg.predict ((s.gprs i).alpha) (i : ℕ) (residual cfg.y s.CF i) n * r
                + residual cfg.y s.CF i n) / 2
            else
              cfg.predict ((s.gprs i).alpha) (i : ℕ) (residual cfg.y s.CF i) n * r) ∧
        (∀ n j, j ≠ i → s1.CF n j = s.CF n j)) ∧
    (∀ l, comboFold cfg k (i :: l) s = (innerStep cfg k s i).bind (comboFold cfg k l)) := by
  refine ⟨?_, ?_, fun l => rfl⟩
  · rw [innerStep, hr]
    rfl
  · intro s1 h1
    rw [innerStep, hr, Option.map_some', Option.some_inj] at h1
    constructor
    · intro n
      rw [← h1]
      simp [updateCol]
    · intro n j hji
      rw [← h1]
      simp [updateCol, hji]

/-- Witness for C6 at a concrete one-combination step with mixing on. -/
theorem update_policy_spec_witness : (innerStep cfgC 0 sC 0).isSome = true := by
  have hr : rampOpt cfgC.nc 0 = some 1 := by
    rw [show cfgC.nc = 3 from rfl, rampOpt, if_neg (by norm_num)]
    congr 1
    exact min_eq_left (by norm_num)
  exact (update_policy_spec cfgC 0 sC 0 1 hr).1

theorem stateAfter_hist_length {N M : ℕ} (cfg : Config N M) :
    ∀ (k : ℕ) (s : TrainState N M), stateAfter cfg k = some s → s.hist.length = k := by
  intro k
  induction k with
  | zero =>
    intro s h
    rw [stateAfter, Option.some_inj] at h
    rw [← h]
    rfl
  | succ k ih =>
    intro s h
    rw [stateAfter] at h
    rcases Option.bind_eq_some.mp h with ⟨s0, h0, h1⟩
    rw [runCycle] at h1
    rcases Option.map_eq_some'.mp h1 with ⟨fs, _, hs⟩
    rw [← hs]
    show (s0.hist ++ [sumcol fs.CF 10000]).length = k + 1
    rw [List.length_append, ih s0 h0]
    rfl

/-- Claim C5 (amended): provided the number of combinations does not
exceed the sentinel 10000 of line 140, the value appended to the RMSE
history at the end of every cycle equals
`rmse(y_train * scale_factor, S * scale_factor)` with `S` the row-sum of
the component matrix over ALL columns, and a completed run returns
exactly one history entry per cycle, in cycle order. -/
theorem rmse_history_spec {N M : ℕ} (cfg : Config N M) (hM : M ≤ 10000) (sf : ℚ) :
    (∀ r, rmseTrain cfg sf = some r → r.length = cfg.nc) ∧
    (∀ (k : ℕ) (s s1 : TrainState N M), runCycle cfg k s = some s1 →
        s1.hist.map (fun S => rmse (fun n => cfg.y n * sf) (fun n => S n * sf))
          = s.hist.map (fun S => rmse (fun n => cfg.y n * sf) (fun n => S n * sf))
            ++ [rmse (fun n => cfg.y n * sf) (fun n => (∑ j, s1.CF n j) * sf)]) := by
  constructor
  · intro r hr
    rcases Option.map_eq_some'.mp hr with ⟨st, hst, hrst⟩
    rw [← hrst, List.length_map]
    rw [trainLoop] at hst
    exact stateAfter_hist_length cfg cfg.nc st hst
  · intro k s s1 h
    rw [runCycle] at h
    rcases Option.map_eq_some'.mp h with ⟨fs, _, hs⟩
    rw [← hs]
    have hfull : (fun n => sumcol fs.CF 10000 n * sf)
        = fun n => (∑ j, fs.CF n j) * sf :=
      funext fun n => by rw [sumcol_of_ge fs.CF 10000 hM n]
    show (s.hist ++ [sumcol fs.CF 10000]).map _ = _
    rw [List.map_append, List.map_singleton, hfull]

/-- Witness for C5: a two-cycle run with no combinations returns a
two-entry history. -/
theorem rmse_history_spec_witness : rW5.length = cfgW5.nc :=
  (rmse_history_spec cfgW5 (by norm_num) 1).1 rW5 rfl

theorem comboFold_const_pred {N M : ℕ} (cfg : Config N M) (k : ℕ) (r : ℚ)
    (hr : rampOpt cfg.nc k = some r) (hm : cfg.mixe = false)
    (g : ℕ → Fin N → ℚ) (hp : ∀ a i v, cfg.predict a i v = g i) :
    ∀ (l : List (Fin M)) (s : FitState N M),
      ∃ fs, comboFold cfg k l s = some fs ∧
        ∀ (n : Fin N) (j : Fin M),
          fs.CF n j = if j ∈ l then g (j : ℕ) n * r else s.CF n j := by
  have hnc : cfg.nc / 3 ≠ 0 := by
    intro h0
    rw [rampOpt, if_pos h0] at hr
    exact Option.noConfusion hr
  intro l
  induction l with
  | nil =>
    intro s
    exact ⟨s, rfl, fun n j => by simp⟩
  | cons i l ih =>
    intro s
    obtain ⟨s2, hs2⟩ := innerStep_isSome cfg k s i hnc
    have hCF2 : ∀ n j, s2.CF n j = if j = i then g (i : ℕ) n * r else s.CF n j := by
      intro n j
      rw [innerStep, hr, Option.map_some', Option.some_inj] at hs2
      rw [← hs2]
      by_cases hji : j = i
      · subst hji
        simp [updateCol, hm, hp]
      · simp [updateCol, hji]
    obtain ⟨fs, hfold, hCF⟩ := ih s2
    refine ⟨fs, ?_, ?_⟩
    · rw [comboFold, hs2, Option.some_bind]
      exact hfold
    · intro n j
      rw [hCF n j, hCF2 n j]
      by_cases hjl : j ∈ l
      · simp [hjl]
      · by_cases hji : j = i
        · subst hji
          simp [hjl]
        · simp [hjl, hji]

/-- Counterexample to C5 as stated: with 10001 combinations (one past the
sentinel), targets zero and a predictor that makes exactly column 10000
equal to one, the value appended at the end of cycle 0 is `0`, while
`rmse(y_train * sf, (full row-sum) * sf)` over all columns equals `1`. -/
theorem rmse_history_cex :
    (runCycle cfgD 0 (initTrain cfgD)).map
        (fun s1 =>
          (s1.hist.map fun S => rmse (fun n => cfgD.y n * 1) (fun n => S n * 1),
            rmse (fun n => cfgD.y n * 1) (fun n => (∑ j, s1.CF n j) * 1)))
      = some ([0], 1) ∧ (0 : ℝ) ≠ 1 := by
  have hr : rampOpt cfgD.nc 0 = some 1 := by
    rw [show cfgD.nc = 3 from rfl, rampOpt, if_neg (by norm_num)]
    congr 1
    exact min_eq_left (by norm_num)
  obtain ⟨fs, hfold, hCF⟩ :=
    comboFold_const_pred cfgD 0 1 hr rfl gD (fun _ _ _ => rfl) (List.finRange 10001)
      ⟨(cycleGPRs cfgD.useDecay 0 (initTrain cfgD).alpha (initTrain cfgD).gprs).2,
        (initTrain cfgD).CF⟩
  have hCF2 : ∀ (n : Fin 1) (j : Fin 10001), fs.CF n j = gD (j : ℕ) n := by
    intro n j
    rw [hCF n j, if_pos (List.mem_finRange j), mul_one]
  refine ⟨?_, by norm_num⟩
  rw [runCycle, hfold, Option.map_some', Option.map_some', Option.some_inj]
  have hS : ∀ n : Fin 1, sumcol fs.CF 10000 n = 0 := by
    intro n
    rw [sumcol_eq_sum]
    refine Finset.sum_eq_zero fun i _ => ?_
    by_cases h : (i : ℕ) = 10000
    · rw [if_pos h]
    · rw [if_neg h, hCF2 n i]
      simp [gD, h]
  have hT : ∀ n : Fin 1, (∑ j, fs.CF n j) = 1 := by
    intro n
    rw [Finset.sum_congr rfl fun j _ => hCF2 n j]
    have he : ∀ j : Fin 10001, gD (j : ℕ) n
        = if j = (⟨10000, by norm_num⟩ : Fin 10001) then (1 : ℚ) else 0 := by
      intro j
      by_cases h : (j : ℕ) = 10000
      · rw [if_pos (Fin.ext h)]
        simp [gD, h]
      · rw [if_neg fun hc => h (by rw [hc])]
        simp [gD, h]
    rw [Finset.sum_congr rfl fun j _ => he j, Finset.sum_ite_eq']
    simp
  have hSf : rmse (fun n => cfgD.y n * 1) (fun n => sumcol fs.CF 10000 n * 1) = 0 := by
    have h1 : (fun n => sumcol fs.CF 10000 n * 1) = fun _ : Fin 1 => (0 : ℚ) :=
      funext fun n => by rw [hS n]; ring
    rw [h1]
    simp [rmse, MSE, Sqerr, cfgD, vA]
  have hTf : rmse (fun n => cfgD.y n * 1) (fun n => (∑ j, fs.CF n j) * 1) = 1 := by
    have h1 : (fun n => (∑ j, fs.CF n j) * 1) = fun _ : Fin 1 => (1 : ℚ) :=
      funext fun n => by rw [hT n]; ring
    rw [h1]
    simp [rmse, MSE, Sqerr, cfgD, vA]
  simp only [initTrain, List.nil_append, List.map_singleton]
  rw [hSf, hTf]

/-- Claim C7 (amended): the error-bar matrix stores the squared standard
deviation; provided the number of combinations does not exceed the
sentinels of lines 156/158 (5000 suffices for both), the raw prediction
is the row-sum of the test component matrix over ALL columns and the
returned combined uncertainty is
`sqrt(row-sum of all variances) * scale_factor`, which is nonnegative
whenever `scale_factor` is (as it is for the documented
`scale_factor = y.max() - y.min()`). -/
theorem evaluator_spec (Nt M : ℕ) (predStd : ℕ → (Fin Nt → ℚ) × (Fin Nt → ℚ))
    (sf : ℚ) (hM : M ≤ 5000) :
    (∀ (t : Fin Nt) (i : Fin M),
        errVarMat Nt M predStd t i = ((predStd (i : ℕ)).2 t) ^ 2) ∧
    (∀ t, ypredT Nt M predStd t = ∑ i : Fin M, (predStd (i : ℕ)).1 t) ∧
    (∀ t, errorBarsT Nt M predStd t * (sf : ℝ)
        = Real.sqrt (∑ i : Fin M, ((predStd (i : ℕ)).2 t : ℝ) ^ 2) * (sf : ℝ)) ∧
    (0 ≤ sf → ∀ t, 0 ≤ errorBarsT Nt M predStd t * (sf : ℝ)) := by
  refine ⟨fun t i => by rw [errVarMat]; ring, fun t => ?_, fun t => ?_, fun hsf t => ?_⟩
  · rw [ypredT, sumcol_of_ge _ 10000 (by omega) t]
    rfl
  · have h1 : errVarSum Nt M predStd t = ∑ i : Fin M, errVarMat Nt M predStd t i :=
      sumcol_of_ge (errVarMat Nt M predStd) 5000 hM t
    rw [show errorBarsT Nt M predStd t
        = Real.sqrt ((errVarSum Nt M predStd t : ℝ)) from rfl, h1]
    congr 2
    simp only [errVarMat]
    push_cast
    exact Finset.sum_congr rfl fun i _ => (pow_two _).symm
  · exact mul_nonneg (Real.sqrt_nonneg _) (by exact_mod_cast hsf)

/-- Witness for C7 at a single test-bloc regressor with unit scale. -/
theorem evaluator_spec_witness : 0 ≤ errorBarsT 1 1 predW 0 * ((1 : ℚ) : ℝ) :=
  (evaluator_spec 1 1 predW 1 (by norm_num)).2.2.2 (by norm_num) 0

/-- Counterexample to C7 as stated: with 5001 combinations (one past the
sentinel of line 158) where only combination 5000 has nonzero standard
deviation, the returned combined uncertainty is `0` while
`sqrt(row-sum of all M variances) * scale_factor` equals `1`; and with a
negative `scale_factor` the returned combined uncertainty is negative. -/
theorem evaluator_cex :
    errorBarsT 1 5001 predC7 0 = 0 ∧
    Real.sqrt (∑ i : Fin 5001, ((predC7 (i : ℕ)).2 0 : ℝ) ^ 2) = 1 ∧
    (0 : ℝ) ≠ 1 ∧
    errorBarsT 1 1 predC7b 0 * ((-1 : ℚ) : ℝ) = -1 ∧
    ¬(0 : ℝ) ≤ -1 := by
  refine ⟨?_, ?_, by norm_num, ?_, by norm_num⟩
  · rw [show errorBarsT 1 5001 predC7 0
        = Real.sqrt ((errVarSum 1 5001 predC7 0 : ℝ)) from rfl]
    have h0 : errVarSum 1 5001 predC7 0 = 0 := by
      rw [errVarSum, sumcol_eq_sum]
      refine Finset.sum_eq_zero fun i _ => ?_
      by_cases h : (i : ℕ) = 5000
      · rw [if_pos h]
      · rw [if_neg h]
        simp [errVarMat, predC7, h]
    rw [h0]
    simp
  · have h1 : (∑ i : Fin 5001, ((predC7 (i : ℕ)).2 0 : ℝ) ^ 2) = 1 := by
      have he : ∀ i : Fin 5001, ((predC7 (i : ℕ)).2 0 : ℝ) ^ 2
          = if i = (⟨5000, by norm_num⟩ : Fin 5001) then (1 : ℝ) else 0 := by
        intro i
        by_cases h : (i : ℕ) = 5000
        · rw [if_pos (Fin.ext h)]
          simp [predC7, h]
        · rw [if_neg fun hc => h (by rw [hc])]
          simp [predC7, h]
      rw [Finset.sum_congr rfl fun i _ => he i, Finset.sum_ite_eq']
      simp
    rw [h1, Real.sqrt_one]
  · have h2 : errVarSum 1 1 predC7b 0 = 1 := by
      rw [errVarSum, sumcol_of_ge _ 5000 (by norm_num) 0]
      simp [errVarMat, predC7b]
    rw [show errorBarsT 1 1 predC7b 0
        = Real.sqrt ((errVarSum 1 1 predC7b 0 : ℝ)) from rfl, h2]
    norm_num

end RSHDMR
